import Mathlib

/-!
Verification of the mesh-vertex quantization pipeline in
`scripts/mesh_preprocess.py`: normalization strategies (min-max,
unit-sphere), the floor-based quantizer, the error analyzer and the
per-mesh pipeline.

Floating-point arithmetic is embedded as exact arithmetic: `ℚ` where the
code only adds, subtracts, multiplies and divides (quantizer, min-max
normalization, error analysis) and `ℝ` where it takes square roots
(unit-sphere normalization, via `Real.sqrt`).  NumPy operations that
raise (reduction over an empty array, a failed broadcast) or that
produce non-finite values (division by zero, mean of an empty slice)
are embedded as `Option`: `none` stands for "raises or yields NaN/Inf".
-/

/-- A vertex: one 3-component coordinate row of the `(N,3)` NumPy array. -/
abbrev Vec3 := Fin 3 → ℚ

/-- A quantized vertex: one row of the int64 array produced by `quantize`. -/
abbrev ZVec3 := Fin 3 → ℤ

/-! ### Quantizer (`quantize` / `dequantize` in mesh_preprocess.py) -/

/-- One component of `quantize`:
`q = np.floor(normalized * (n - 1)).astype(np.int64); q = np.clip(q, 0, n - 1)`.
NumPy's `clip(q, lo, hi)` applies the lower bound first, then the upper. -/
def quantize1 (x : ℚ) (bins : ℤ) : ℤ :=
  min (max (Int.floor (x * ((bins : ℚ) - 1))) 0) (bins - 1)

/-- `quantize(normalized, bins)` applied elementwise to a vertex buffer. -/
def quantize (v : List Vec3) (bins : ℤ) : List ZVec3 :=
  v.map (fun p i => quantize1 (p i) bins)

/-- One component of `dequantize`: `q.astype(np.float64) / (n - 1)`.
When `n - 1 = 0` the float division yields Inf (or NaN for `q = 0`)
with no exception; a non-finite float has no rational value, so the
embedding returns `none` in that case. -/
def dequantize1 (q : ℤ) (bins : ℤ) : Option ℚ :=
  if bins - 1 = 0 then none else some ((q : ℚ) / ((bins : ℚ) - 1))

/-- `dequantize(q, bins)` on a buffer: the division by zero actually
happens (producing non-finite values) only when the buffer has at least
one element. -/
def dequantize (qv : List ZVec3) (bins : ℤ) : Option (List Vec3) :=
  if bins - 1 = 0 ∧ qv ≠ [] then none
  else some (qv.map (fun q i => ((q i : ℚ)) / ((bins : ℚ) - 1)))

/-! ### Quantizer claims -/

/-- C2: for every `bins ≥ 2` and every `x ∈ [0,1]`, dequantizing the
quantized value lands within `1/(bins-1)` of `x`. -/
theorem dequantize_quantize_close (bins : ℤ) (hb : 2 ≤ bins)
    (x : ℚ) (h0 : 0 ≤ x) (h1 : x ≤ 1) :
    ∃ y, dequantize1 (quantize1 x bins) bins = some y ∧
      |y - x| ≤ 1 / ((bins : ℚ) - 1) := by
  have hb1 : (1 : ℚ) ≤ (bins : ℚ) - 1 := by
    have : (2 : ℚ) ≤ (bins : ℚ) := by exact_mod_cast hb
    linarith
  have hbpos : (0 : ℚ) < (bins : ℚ) - 1 := by linarith
  have hbne : ((bins : ℚ) - 1) ≠ 0 := ne_of_gt hbpos
  set y := x * ((bins : ℚ) - 1) with hy
  have hy0 : 0 ≤ y := mul_nonneg h0 (le_of_lt hbpos)
  have hy1 : y ≤ (bins : ℚ) - 1 := by
    calc y ≤ 1 * ((bins : ℚ) - 1) := by
          exact mul_le_mul_of_nonneg_right h1 (le_of_lt hbpos)
      _ = (bins : ℚ) - 1 := one_mul _
  have hfl0 : 0 ≤ ⌊y⌋ := Int.le_floor.mpr (by exact_mod_cast hy0)
  have hfl1 : ⌊y⌋ ≤ bins - 1 := by
    have h := Int.floor_le_floor hy1
    simpa using h
  have hq : quantize1 x bins = ⌊y⌋ := by
    unfold quantize1
    rw [← hy, max_eq_left hfl0, min_eq_left hfl1]
  have hbz : bins - 1 ≠ 0 := by omega
  refine ⟨(⌊y⌋ : ℚ) / ((bins : ℚ) - 1), ?_, ?_⟩
  · simp [dequantize1, hq, hbz]
  · have hle : (⌊y⌋ : ℚ) ≤ y := Int.floor_le y
    have hgt : y - 1 < (⌊y⌋ : ℚ) := by
      have := Int.lt_floor_add_one y
      linarith
    have hxeq : x = y / ((bins : ℚ) - 1) := by
      field_simp [hy]
    rw [hxeq, div_sub_div_same, abs_div, abs_of_pos hbpos]
    have habs : |(⌊y⌋ : ℚ) - y| ≤ 1 := by
      rw [abs_le]
      constructor <;> linarith
    exact (div_le_div_iff_of_pos_right hbpos).mpr habs

/-- Witness for C2 at `bins = 2`, `x = 1/2`. -/
theorem dequantize_quantize_close_witness :
    ∃ y, dequantize1 (quantize1 (1/2) 2) 2 = some y ∧
      |y - (1/2 : ℚ)| ≤ 1 / ((2 : ℤ) - 1 : ℚ) := by
  have h := dequantize_quantize_close 2 (by norm_num) (1/2)
    (by norm_num) (by norm_num)
  simpa using h

/-- C3 (behavior at `bins = 1`): `quantize` silently returns 0 on every
component (no error of any kind), and `dequantize1` divides by zero,
producing a non-finite value (`none`); no InvalidConfiguration error
exists anywhere in the code. -/
theorem quantizer_bins_one_silent :
    (∀ x : ℚ, quantize1 x 1 = 0) ∧
    (∀ v : List Vec3, quantize v 1 = v.map (fun _ _ => 0)) ∧
    (∀ q : ℤ, dequantize1 q 1 = none) := by
  refine ⟨?_, ?_, ?_⟩
  · intro x
    simp [quantize1]
  · intro v
    simp [quantize, quantize1]
  · intro q
    simp [dequantize1]

/-- C7: `quantize1` is exactly the clamped floor `min (max ⌊x·(bins-1)⌋ 0)
(bins-1)`, and a component equal to `1` maps to `bins - 1`, never to
`bins`. -/
theorem quantize_formula (bins : ℤ) (hb : 2 ≤ bins) (x : ℚ) :
    quantize1 x bins = min (max (Int.floor (x * ((bins : ℚ) - 1))) 0) (bins - 1) ∧
    quantize1 1 bins = bins - 1 ∧ quantize1 1 bins ≠ bins := by
  refine ⟨rfl, ?_, ?_⟩
  · unfold quantize1
    have h1 : ((1 : ℚ)) * ((bins : ℚ) - 1) = ((bins - 1 : ℤ) : ℚ) := by
      push_cast
      ring
    rw [h1, Int.floor_intCast]
    have h2 : (0 : ℤ) ≤ bins - 1 := by omega
    rw [max_eq_left h2, min_self]
  · unfold quantize1
    have h1 : ((1 : ℚ)) * ((bins : ℚ) - 1) = ((bins - 1 : ℤ) : ℚ) := by
      push_cast
      ring
    rw [h1, Int.floor_intCast]
    have h2 : (0 : ℤ) ≤ bins - 1 := by omega
    rw [max_eq_left h2, min_self]
    omega

/-- Witness for C7 at `bins = 2`, `x = 3/4`. -/
theorem quantize_formula_witness :
    quantize1 (3/4) 2 = min (max (Int.floor ((3/4 : ℚ) * ((2 : ℤ) - 1 : ℚ))) 0) (2 - 1) ∧
    quantize1 1 2 = 2 - 1 ∧ quantize1 1 2 ≠ 2 :=
  quantize_formula 2 (by norm_num) (3/4)

/-- C9: for `bins ≥ 2` the clip makes every output component land in
`[0, bins-1]` unconditionally, for any real input (negative or above 1
included). -/
theorem quantize_range (bins : ℤ) (hb : 2 ≤ bins) (x : ℚ) :
    0 ≤ quantize1 x bins ∧ quantize1 x bins ≤ bins - 1 := by
  unfold quantize1
  constructor
  · apply le_min
    · exact le_max_right _ 0
    · omega
  · exact min_le_right _ _

/-- Witness for C9 at `bins = 2` with the out-of-range input `x = -5`. -/
theorem quantize_range_witness :
    0 ≤ quantize1 (-5) 2 ∧ quantize1 (-5) 2 ≤ 2 - 1 :=
  quantize_range 2 (by norm_num) (-5)

/-- C10: every grid point `q/(bins-1)` with `q ∈ [0, bins-1]` is a fixed
point of the codec: re-quantizing the dequantized value gives back `q`. -/
theorem quantize_dequantize_id (bins q : ℤ) (hb : 2 ≤ bins)
    (h0 : 0 ≤ q) (h1 : q ≤ bins - 1) :
    ∃ x, dequantize1 q bins = some x ∧ quantize1 x bins = q := by
  have hbz : bins - 1 ≠ 0 := by omega
  have h2 : (2 : ℚ) ≤ (bins : ℚ) := by exact_mod_cast hb
  have hbne : ((bins : ℚ) - 1) ≠ 0 := ne_of_gt (by linarith)
  refine ⟨(q : ℚ) / ((bins : ℚ) - 1), ?_, ?_⟩
  · simp [dequantize1, hbz]
  · unfold quantize1
    have hx : (q : ℚ) / ((bins : ℚ) - 1) * ((bins : ℚ) - 1) = (q : ℚ) := by
      field_simp
    rw [hx, Int.floor_intCast, max_eq_left h0, min_eq_left h1]

/-- Witness for C10 at `bins = 4`, `q = 2`. -/
theorem quantize_dequantize_id_witness :
    ∃ x, dequantize1 2 4 = some x ∧ quantize1 x 4 = 2 :=
  quantize_dequantize_id 4 2 (by norm_num) (by norm_num) (by norm_num)

/-! ### Error analyzer (`compute_errors` in mesh_preprocess.py) -/

/-- The record returned by `compute_errors`. -/
structure ErrorReport where
  mse_per_axis : Fin 3 → ℚ
  mae_per_axis : Fin 3 → ℚ
  mse : ℚ
  mae : ℚ

/-- `diff = original - reconstructed` under NumPy broadcasting of the
leading dimension: shapes `(N,3)` and `(M,3)` subtract elementwise when
`N = M`, stretch the length-1 operand when `N = 1` or `M = 1`, and raise
a `ValueError` (here `none`) otherwise. -/
def broadcastSub (a b : List Vec3) : Option (List Vec3) :=
  if a.length = b.length then
    some (List.zipWith (fun p q => fun i => p i - q i) a b)
  else if a.length = 1 then
    some (b.map (fun q => fun i => a.headI i - q i))
  else if b.length = 1 then
    some (a.map (fun p => fun i => p i - b.headI i))
  else none

/-- `compute_errors(original, reconstructed)`:
`mse_per_axis = np.mean(diff ** 2, axis=0)`,
`mae_per_axis = np.mean(np.abs(diff), axis=0)`,
`mse = float(np.mean(mse_per_axis))`, `mae = float(np.mean(mae_per_axis))`.
`np.mean` over an empty axis yields NaN (with a runtime warning, no
exception); NaN has no rational value, so that case is `none`. -/
def compute_errors (original reconstructed : List Vec3) : Option ErrorReport :=
  match broadcastSub original reconstructed with
  | none => none
  | some diff =>
    if diff.length = 0 then none
    else
      let msePA : Fin 3 → ℚ := fun a => (diff.map (fun d => (d a) ^ 2)).sum / diff.length
      let maePA : Fin 3 → ℚ := fun a => (diff.map (fun d => |d a|)).sum / diff.length
      some ⟨msePA, maePA, (msePA 0 + msePA 1 + msePA 2) / 3,
            (maePA 0 + maePA 1 + maePA 2) / 3⟩

/-- On equal-length non-empty buffers, `compute_errors` returns exactly
the per-axis means of squared / absolute differences, with the scalars
being the mean of the three per-axis means. -/
theorem compute_errors_eq_of_len (o r : List Vec3)
    (hlen : o.length = r.length) (hne : o.length ≠ 0) :
    compute_errors o r = some
      { mse_per_axis := fun a =>
          (List.zipWith (fun p q => (p a - q a) ^ 2) o r).sum / o.length
        mae_per_axis := fun a =>
          (List.zipWith (fun p q => |p a - q a|) o r).sum / o.length
        mse := ((List.zipWith (fun p q => (p 0 - q 0) ^ 2) o r).sum / o.length
              + (List.zipWith (fun p q => (p 1 - q 1) ^ 2) o r).sum / o.length
              + (List.zipWith (fun p q => (p 2 - q 2) ^ 2) o r).sum / o.length) / 3
        mae := ((List.zipWith (fun p q => |p 0 - q 0|) o r).sum / o.length
              + (List.zipWith (fun p q => |p 1 - q 1|) o r).sum / o.length
              + (List.zipWith (fun p q => |p 2 - q 2|) o r).sum / o.length) / 3 } := by
  have hb : broadcastSub o r =
      some (List.zipWith (fun p q => fun i => p i - q i) o r) := by
    simp [broadcastSub, hlen]
  have hlz : (List.zipWith (fun p q => fun (i : Fin 3) => p i - q i) o r).length
      = o.length := by
    rw [List.length_zipWith, hlen, min_self]
  unfold compute_errors
  rw [hb]
  simp only [hlz, if_neg hne]
  congr 1
  have hmapsq : ∀ a : Fin 3,
      (List.zipWith (fun p q => fun (i : Fin 3) => p i - q i) o r).map
        (fun d => (d a) ^ 2)
      = List.zipWith (fun p q => (p a - q a) ^ 2) o r := by
    intro a
    rw [List.map_zipWith]
  have hmapabs : ∀ a : Fin 3,
      (List.zipWith (fun p q => fun (i : Fin 3) => p i - q i) o r).map
        (fun d => |d a|)
      = List.zipWith (fun p q => |p a - q a|) o r := by
    intro a
    rw [List.map_zipWith]
  refine ErrorReport.mk.injEq _ _ _ _ _ _ _ _ ▸ ?_
  exact ⟨by funext a; rw [hmapsq a], by funext a; rw [hmapabs a],
    by rw [hmapsq 0, hmapsq 1, hmapsq 2],
    by rw [hmapabs 0, hmapabs 1, hmapabs 2]⟩

/-- C5: on equal-length buffers (N ≥ 1) `compute_errors` computes the
per-axis means of squared and absolute differences, the scalars are the
means of the three per-axis means, and on the spec's concrete example it
returns `mse_per_axis = [2,0,0]`, `mae_per_axis = [1,0,0]`, `mse = 2/3`,
`mae = 1/3`. -/
theorem compute_errors_spec :
    (∀ o r : List Vec3, o.length = r.length → o ≠ [] →
      ∃ rep, compute_errors o r = some rep ∧
        (∀ a, rep.mse_per_axis a =
          (List.zipWith (fun p q => (p a - q a) ^ 2) o r).sum / o.length) ∧
        (∀ a, rep.mae_per_axis a =
          (List.zipWith (fun p q => |p a - q a|) o r).sum / o.length) ∧
        rep.mse = (rep.mse_per_axis 0 + rep.mse_per_axis 1 + rep.mse_per_axis 2) / 3 ∧
        rep.mae = (rep.mae_per_axis 0 + rep.mae_per_axis 1 + rep.mae_per_axis 2) / 3) ∧
    (∃ rep, compute_errors [![0,0,0], ![2,0,0]] [![0,0,0], ![0,0,0]] = some rep ∧
      rep.mse_per_axis 0 = 2 ∧ rep.mse_per_axis 1 = 0 ∧ rep.mse_per_axis 2 = 0 ∧
      rep.mae_per_axis 0 = 1 ∧ rep.mae_per_axis 1 = 0 ∧ rep.mae_per_axis 2 = 0 ∧
      rep.mse = 2/3 ∧ rep.mae = 1/3) := by
  constructor
  · intro o r hlen hne
    have hne0 : o.length ≠ 0 := fun h => hne (List.length_eq_zero.mp h)
    refine ⟨_, compute_errors_eq_of_len o r hlen hne0, fun a => rfl, fun a => rfl, ?_, ?_⟩
    · rfl
    · rfl
  · have hlen : ([![(0:ℚ),0,0], ![2,0,0]] : List Vec3).length
        = ([![(0:ℚ),0,0], ![0,0,0]] : List Vec3).length := rfl
    refine ⟨_, compute_errors_eq_of_len _ _ hlen (by decide), ?_, ?_, ?_, ?_, ?_, ?_, ?_, ?_⟩
    all_goals norm_num [Matrix.cons_val_zero, Matrix.cons_val_one]

/-- Witness for C5, applying the general part at the one-row buffers
`[[1,2,3]]` and `[[0,2,3]]`. -/
theorem compute_errors_spec_witness :
    ∃ rep, compute_errors [![1,2,3]] [![0,2,3]] = some rep ∧
      (∀ a, rep.mse_per_axis a = (List.zipWith
        (fun p q : Vec3 => (p a - q a) ^ 2) [![1,2,3]] [![0,2,3]]).sum
          / ([![(1:ℚ),2,3]] : List Vec3).length) ∧
      (∀ a, rep.mae_per_axis a = (List.zipWith
        (fun p q : Vec3 => |p a - q a|) [![1,2,3]] [![0,2,3]]).sum
          / ([![(1:ℚ),2,3]] : List Vec3).length) ∧
      rep.mse = (rep.mse_per_axis 0 + rep.mse_per_axis 1 + rep.mse_per_axis 2) / 3 ∧
      rep.mae = (rep.mae_per_axis 0 + rep.mae_per_axis 1 + rep.mae_per_axis 2) / 3 :=
  compute_errors_spec.1 [![1,2,3]] [![0,2,3]] rfl (by decide)

/-- C8 counterexample: a length-1 original against a length-2
reconstruction has mismatched lengths, yet `compute_errors` silently
broadcasts and returns a normal `ErrorReport` instead of failing. -/
theorem compute_errors_broadcast_no_failure :
    ([![(0:ℚ),0,0]] : List Vec3).length ≠
      ([![(2:ℚ),0,0], ![0,0,0]] : List Vec3).length ∧
    ∃ rep, compute_errors [![0,0,0]] [![2,0,0], ![0,0,0]] = some rep := by
  refine ⟨by decide, ⟨_, rfl⟩⟩

/-- C8 amended: when the lengths differ and neither buffer has length 1,
the NumPy subtraction fails to broadcast and `compute_errors` raises
(returns no report). -/
theorem compute_errors_mismatch_fails (o r : List Vec3)
    (hne : o.length ≠ r.length) (ho : o.length ≠ 1) (hr : r.length ≠ 1) :
    compute_errors o r = none := by
  simp [compute_errors, broadcastSub, hne, ho, hr]

/-- Witness for the amended C8 at lengths 2 and 3. -/
theorem compute_errors_mismatch_fails_witness :
    compute_errors [![0,0,0], ![0,0,0]] [![0,0,0], ![0,0,0], ![0,0,0]] = none :=
  compute_errors_mismatch_fails _ _ (by decide) (by decide) (by decide)

/-! ### Min-max normalization (`normalize_minmax` / `denormalize_minmax`) -/

/-- `meta = {'vmin': vmin, 'vmax': vmax}`. -/
structure MetaMM where
  vmin : Vec3
  vmax : Vec3

/-- `vertices.min(axis=0)`: per-axis minimum; raises on an empty array. -/
def vminOf : List Vec3 → Option Vec3
  | [] => none
  | p :: ps => some (fun i => (ps.map (fun q => q i)).foldl min (p i))

/-- `vertices.max(axis=0)`: per-axis maximum; raises on an empty array. -/
def vmaxOf : List Vec3 → Option Vec3
  | [] => none
  | p :: ps => some (fun i => (ps.map (fun q => q i)).foldl max (p i))

/-- `normalize_minmax`: `denom = vmax - vmin; denom[denom == 0] = 1.0;
normalized = (vertices - vmin) / denom; meta = {'vmin': vmin, 'vmax': vmax}`. -/
def normalize_minmax (v : List Vec3) : Option (List Vec3 × MetaMM) :=
  match vminOf v, vmaxOf v with
  | some vmin, some vmax =>
      some (v.map (fun p i => (p i - vmin i) /
          (if vmax i - vmin i = 0 then 1 else vmax i - vmin i)), ⟨vmin, vmax⟩)
  | _, _ => none

/-- `denormalize_minmax`: `normalized * (vmax - vmin) + vmin`
(note: the raw difference, not the zero-protected denominator). -/
def denormalize_minmax (nm : List Vec3) (meta : MetaMM) : List Vec3 :=
  nm.map (fun p i => p i * (meta.vmax i - meta.vmin i) + meta.vmin i)

theorem foldl_min_le_init {α : Type} [LinearOrder α] :
    ∀ (xs : List α) (a : α), xs.foldl min a ≤ a := by
  intro xs
  induction xs with
  | nil => intro a; simp
  | cons y ys ih =>
    intro a
    simp only [List.foldl_cons]
    exact le_trans (ih (min a y)) (min_le_left a y)

theorem foldl_min_le_mem {α : Type} [LinearOrder α] :
    ∀ (xs : List α) (a x : α), x ∈ xs → xs.foldl min a ≤ x := by
  intro xs
  induction xs with
  | nil => intro a x hx; cases hx
  | cons y ys ih =>
    intro a x hx
    simp only [List.foldl_cons]
    rcases List.mem_cons.mp hx with h | h
    · subst h
      exact le_trans (foldl_min_le_init ys (min a x)) (min_le_right a x)
    · exact ih (min a y) x h

theorem le_foldl_min {α : Type} [LinearOrder α] :
    ∀ (xs : List α) (a b : α), b ≤ a → (∀ x ∈ xs, b ≤ x) → b ≤ xs.foldl min a := by
  intro xs
  induction xs with
  | nil => intro a b hb _; simpa using hb
  | cons y ys ih =>
    intro a b hb hxs
    simp only [List.foldl_cons]
    exact ih (min a y) b (le_min hb (hxs y (List.mem_cons_self y ys)))
      (fun x hx => hxs x (List.mem_cons_of_mem y hx))

theorem le_foldl_max_init {α : Type} [LinearOrder α] :
    ∀ (xs : List α) (a : α), a ≤ xs.foldl max a := by
  intro xs
  induction xs with
  | nil => intro a; simp
  | cons y ys ih =>
    intro a
    simp only [List.foldl_cons]
    exact le_trans (le_max_left a y) (ih (max a y))

theorem le_foldl_max_mem {α : Type} [LinearOrder α] :
    ∀ (xs : List α) (a x : α), x ∈ xs → x ≤ xs.foldl max a := by
  intro xs
  induction xs with
  | nil => intro a x hx; cases hx
  | cons y ys ih =>
    intro a x hx
    simp only [List.foldl_cons]
    rcases List.mem_cons.mp hx with h | h
    · subst h
      exact le_trans (le_max_right a x) (le_foldl_max_init ys (max a x))
    · exact ih (max a y) x h

theorem foldl_max_le {α : Type} [LinearOrder α] :
    ∀ (xs : List α) (a b : α), a ≤ b → (∀ x ∈ xs, x ≤ b) → xs.foldl max a ≤ b := by
  intro xs
  induction xs with
  | nil => intro a b hb _; simpa using hb
  | cons y ys ih =>
    intro a b hb hxs
    simp only [List.foldl_cons]
    exact ih (max a y) b (max_le hb (hxs y (List.mem_cons_self y ys)))
      (fun x hx => hxs x (List.mem_cons_of_mem y hx))

/-- Bounds: every vertex lies between the per-axis min and max. -/
theorem vmin_le_vmax_bounds (p : Vec3) (ps : List Vec3) (q : Vec3)
    (hq : q ∈ p :: ps) (i : Fin 3) :
    (ps.map (fun w => w i)).foldl min (p i) ≤ q i ∧
    q i ≤ (ps.map (fun w => w i)).foldl max (p i) := by
  rcases List.mem_cons.mp hq with h | h
  · subst h
    exact ⟨foldl_min_le_init _ _, le_foldl_max_init _ _⟩
  · have hmem : q i ∈ ps.map (fun w => w i) := List.mem_map_of_mem _ h
    exact ⟨foldl_min_le_mem _ _ _ hmem, le_foldl_max_mem _ _ _ hmem⟩

/-- One component of the min-max round trip. -/
theorem minmax_roundtrip_comp (lo hi x : ℚ) (hlo : lo ≤ x) (hhi : x ≤ hi) :
    (x - lo) / (if hi - lo = 0 then 1 else hi - lo) * (hi - lo) + lo = x := by
  by_cases h : hi - lo = 0
  · have hx : x = lo := le_antisymm (by linarith) hlo
    rw [if_pos h, hx, h]
    ring
  · rw [if_neg h, div_mul_cancel₀ _ h]
    ring

/-- Min-max round trip on whole buffers (exact, degenerate axes included). -/
theorem minmax_roundtrip (v : List Vec3) (hne : v ≠ []) :
    ∃ nm meta, normalize_minmax v = some (nm, meta) ∧
      denormalize_minmax nm meta = v := by
  obtain ⟨p, ps, rfl⟩ := List.exists_cons_of_ne_nil hne
  refine ⟨_, _, rfl, ?_⟩
  rw [denormalize_minmax, List.map_map]
  have hpt : ∀ q ∈ p :: ps,
      ((fun w i => w i * ((fun j => (ps.map (fun u => u j)).foldl max (p j)) i
            - (fun j => (ps.map (fun u => u j)).foldl min (p j)) i)
          + (fun j => (ps.map (fun u => u j)).foldl min (p j)) i) ∘
        (fun w i => (w i - (ps.map (fun u => u i)).foldl min (p i)) /
          (if (ps.map (fun u => u i)).foldl max (p i)
              - (ps.map (fun u => u i)).foldl min (p i) = 0 then 1
            else (ps.map (fun u => u i)).foldl max (p i)
              - (ps.map (fun u => u i)).foldl min (p i)))) q = q := by
    intro q hq
    funext i
    have hb := vmin_le_vmax_bounds p ps q hq i
    exact minmax_roundtrip_comp _ _ _ hb.1 hb.2
  rw [List.map_congr_left hpt]
  simp

/-- C6: if every vertex shares the value `c` on axis `a`, min-max
normalization succeeds (no division error), the degenerate denominator
on that axis is forced to 1, and the normalized buffer is constantly 0
on that axis. -/
theorem minmax_degenerate_axis (v : List Vec3) (hne : v ≠ []) (a : Fin 3)
    (c : ℚ) (hc : ∀ p ∈ v, p a = c) :
    ∃ nm meta, normalize_minmax v = some (nm, meta) ∧
      (if meta.vmax a - meta.vmin a = 0 then 1 else meta.vmax a - meta.vmin a) = 1 ∧
      ∀ q ∈ nm, q a = 0 := by
  obtain ⟨p, ps, rfl⟩ := List.exists_cons_of_ne_nil hne
  have hpa : p a = c := hc p (List.mem_cons_self p ps)
  have hmin : (ps.map (fun w => w a)).foldl min (p a) = c := by
    apply le_antisymm
    · rw [← hpa]
      exact foldl_min_le_init _ _
    · apply le_foldl_min
      · rw [hpa]
      · intro x hx
        obtain ⟨w, hw, rfl⟩ := List.mem_map.mp hx
        rw [hc w (List.mem_cons_of_mem p hw)]
  have hmax : (ps.map (fun w => w a)).foldl max (p a) = c := by
    apply le_antisymm
    · apply foldl_max_le
      · rw [hpa]
      · intro x hx
        obtain ⟨w, hw, rfl⟩ := List.mem_map.mp hx
        rw [hc w (List.mem_cons_of_mem p hw)]
    · rw [← hpa]
      exact le_foldl_max_init _ _
  refine ⟨_, _, rfl, ?_, ?_⟩
  · simp [hmin, hmax]
  · intro q hq
    obtain ⟨w, hw, rfl⟩ := List.mem_map.mp hq
    show (w a - (ps.map (fun u => u a)).foldl min (p a)) /
        (if (ps.map (fun u => u a)).foldl max (p a)
            - (ps.map (fun u => u a)).foldl min (p a) = 0 then 1
          else (ps.map (fun u => u a)).foldl max (p a)
            - (ps.map (fun u => u a)).foldl min (p a)) = 0
    rw [hmin, hc w hw, sub_self, zero_div]

/-- Witness for C6: the singleton buffer `[[5,1,2]]`, constant on axis 0. -/
theorem minmax_degenerate_axis_witness :
    ∃ nm meta, normalize_minmax [![5,1,2]] = some (nm, meta) ∧
      (if meta.vmax 0 - meta.vmin 0 = 0 then 1 else meta.vmax 0 - meta.vmin 0) = 1 ∧
      ∀ q ∈ nm, q 0 = 0 := by
  apply minmax_degenerate_axis [![5,1,2]] (List.cons_ne_nil _ _) 0 5
  intro p hp
  rw [List.mem_singleton] at hp
  subst hp
  norm_num

/-! ### Per-mesh pipeline (`process_mesh`, one strategy, I/O stripped) -/

/-- The reconstruction pipeline of `process_mesh` for the min-max
strategy, with file I/O and plotting stripped: `mesh.is_empty`
short-circuits before any method runs (the function returns having
produced no report, `none`); otherwise
`normalize → quantize → dequantize → denormalize → compute_errors`,
with the per-method `except` clause turning any raised error into
"no report for this run" (`none`). -/
def process_minmax (v : List Vec3) (bins : ℤ) : Option ErrorReport :=
  match v with
  | [] => none
  | p :: ps =>
    match normalize_minmax (p :: ps) with
    | none => none
    | some (nm, meta) =>
      match dequantize (quantize nm bins) bins with
      | none => none
      | some deq => compute_errors (p :: ps) (denormalize_minmax deq meta)

/-- C4 counterexample: on the empty buffer the pipeline produces no
`ErrorReport` at all — in particular, no report with `mse = mae = 0`. -/
theorem process_minmax_empty_no_report :
    ¬ ∃ rep, process_minmax [] 1024 = some rep ∧ rep.mse = 0 ∧ rep.mae = 0 := by
  rintro ⟨rep, h, -, -⟩
  simp [process_minmax] at h

/-- C4 amended: the empty buffer short-circuits the pipeline for every
bin count — it neither throws nor divides by zero, and it produces no
`ErrorReport` (the mesh is skipped before `compute_errors` can run). -/
theorem process_minmax_empty_skips (bins : ℤ) :
    process_minmax [] bins = none := rfl

/-! ### Unit-sphere normalization (`normalize_unit_sphere` /
`denormalize_unit_sphere`); real-valued because of the Euclidean norm -/

/-- A vertex with real coordinates, for the strategy that takes square roots. -/
abbrev RVec3 := Fin 3 → ℝ

/-- `meta = {'centroid': centroid, 'maxd': maxd}`. -/
structure MetaUS where
  centroid : RVec3
  maxd : ℝ

/-- One row of `np.linalg.norm(shifted, axis=1)`. -/
noncomputable def rowNorm (p : RVec3) : ℝ :=
  Real.sqrt (p 0 ^ 2 + p 1 ^ 2 + p 2 ^ 2)

/-- `vertices.mean(axis=0)`. -/
noncomputable def centroidOf (v : List RVec3) : RVec3 :=
  fun i => (v.map (fun p => p i)).sum / v.length

/-- `dists.max()`: raises on an empty array, hence `Option`. -/
noncomputable def listMaxR : List ℝ → Option ℝ
  | [] => none
  | x :: xs => some (xs.foldl max x)

/-- `normalize_unit_sphere`: `centroid = mean; shifted = v - centroid;
maxd = norms.max(); if maxd == 0: maxd = 1.0; unit = shifted / maxd;
normalized = (unit + 1)/2; meta = {'centroid': centroid, 'maxd': maxd}`. -/
noncomputable def normalize_unit_sphere (v : List RVec3) :
    Option (List RVec3 × MetaUS) :=
  match listMaxR ((v.map (fun p i => p i - centroidOf v i)).map rowNorm) with
  | none => none
  | some maxd0 =>
    let maxd := if maxd0 = 0 then 1 else maxd0
    some (((v.map (fun p i => p i - centroidOf v i)).map
        (fun s i => s i / maxd)).map (fun u i => (u i + 1) / 2),
      ⟨centroidOf v, maxd⟩)

/-- `denormalize_unit_sphere`: `unit = normalized * 2 - 1;
unit * maxd + centroid`. -/
def denormalize_unit_sphere (nm : List RVec3) (meta : MetaUS) : List RVec3 :=
  nm.map (fun p i => (p i * 2 - 1) * meta.maxd + meta.centroid i)

theorem rowNorm_nonneg (s : RVec3) : 0 ≤ rowNorm s := Real.sqrt_nonneg _

/-- A row with zero Euclidean norm is the zero row. -/
theorem rowNorm_eq_zero_comp (s : RVec3) (h : rowNorm s = 0) (i : Fin 3) :
    s i = 0 := by
  simp only [rowNorm] at h
  have hnn : (0:ℝ) ≤ s 0 ^ 2 + s 1 ^ 2 + s 2 ^ 2 := by positivity
  have h0 : s 0 ^ 2 + s 1 ^ 2 + s 2 ^ 2 = 0 :=
    le_antisymm (Real.sqrt_eq_zero'.mp h) hnn
  have h1 : s 0 = 0 := by
    nlinarith [sq_nonneg (s 0), sq_nonneg (s 1), sq_nonneg (s 2)]
  have h2 : s 1 = 0 := by
    nlinarith [sq_nonneg (s 0), sq_nonneg (s 1), sq_nonneg (s 2)]
  have h3 : s 2 = 0 := by
    nlinarith [sq_nonneg (s 0), sq_nonneg (s 1), sq_nonneg (s 2)]
  fin_cases i <;> assumption

/-- Unit-sphere round trip on whole buffers (exact, the degenerate
`maxd = 0` fallback included). -/
theorem unit_sphere_roundtrip (v : List RVec3) (hne : v ≠ []) :
    ∃ nm meta, normalize_unit_sphere v = some (nm, meta) ∧
      denormalize_unit_sphere nm meta = v := by
  obtain ⟨p, ps, rfl⟩ := List.exists_cons_of_ne_nil hne
  refine ⟨_, _, rfl, ?_⟩
  rw [denormalize_unit_sphere, List.map_map, List.map_map, List.map_map]
  simp only [Function.comp_def]
  set c := centroidOf (p :: ps) with hcdef
  set M := List.foldl max (rowNorm fun i => p i - c i)
      (List.map rowNorm (List.map (fun w i => w i - c i) ps)) with hMdef
  have hbound : ∀ w ∈ p :: ps, rowNorm (fun i => w i - c i) ≤ M := by
    intro w hw
    rcases List.mem_cons.mp hw with h | h
    · subst h
      exact le_foldl_max_init _ _
    · exact le_foldl_max_mem _ _ _
        (List.mem_map_of_mem rowNorm (List.mem_map_of_mem _ h))
  have key : ∀ w ∈ p :: ps,
      (fun (x : RVec3) (i : Fin 3) =>
        (((x i - c i) / (if M = 0 then 1 else M) + 1) / 2 * 2 - 1)
          * (if M = 0 then 1 else M) + c i) w = w := by
    intro w hw
    funext i
    show (((w i - c i) / (if M = 0 then 1 else M) + 1) / 2 * 2 - 1)
        * (if M = 0 then 1 else M) + c i = w i
    by_cases hM : M = 0
    · have h1 : rowNorm (fun j => w j - c j) = 0 :=
        le_antisymm (hM ▸ hbound w hw) (rowNorm_nonneg _)
      have hzi : w i - c i = 0 := rowNorm_eq_zero_comp _ h1 i
      rw [if_pos hM, hzi]
      have hwc : w i = c i := by linarith
      rw [hwc]
      norm_num
    · rw [if_neg hM]
      field_simp
      ring
  rw [List.map_congr_left key]
  simp

/-- C1: for both normalization strategies, on every non-empty buffer the
forward transform succeeds and the strategy's inverse applied to its
output (with the metadata of that same forward call, no quantization
interposed) recovers the original buffer exactly — hence in particular
within any floating-point tolerance. -/
theorem strategies_roundtrip :
    (∀ v : List Vec3, v ≠ [] →
      ∃ nm meta, normalize_minmax v = some (nm, meta) ∧
        denormalize_minmax nm meta = v) ∧
    (∀ v : List RVec3, v ≠ [] →
      ∃ nm meta, normalize_unit_sphere v = some (nm, meta) ∧
        denormalize_unit_sphere nm meta = v) :=
  ⟨minmax_roundtrip, unit_sphere_roundtrip⟩

/-- Witness for C1 at the two-point rational buffer `[[0,0,0],[1,2,3]]`
(min-max) and the one-point real buffer `[[0,0,0]]` (unit-sphere). -/
theorem strategies_roundtrip_witness :
    (∃ nm meta, normalize_minmax [![0,0,0], ![1,2,3]] = some (nm, meta) ∧
      denormalize_minmax nm meta = [![0,0,0], ![1,2,3]]) ∧
    (∃ nm meta, normalize_unit_sphere [(fun _ => 0 : RVec3)] = some (nm, meta) ∧
      denormalize_unit_sphere nm meta = [(fun _ => 0 : RVec3)]) :=
  ⟨strategies_roundtrip.1 _ (List.cons_ne_nil _ _),
   strategies_roundtrip.2 _ (List.cons_ne_nil _ _)⟩
